import Mathlib

/-!
Verification development for the web_QQ queue-ticketing repository.

Strings are modelled as lists of UTF-16 code units (`List Nat`); timestamps
and numeric ids are modelled as `Nat` parameters.  Every definition is a
shallow embedding of the correspondingly named function of the sources
(`login.js`, `distributor.js`, `server.js`, the `SimpleQueueBackup` class and
the queue-display page), except where a doc comment says
`Modelled from the spec:`.
-/

/-! ## Base64 (the browser `btoa` / `atob` pair) -/

/-- Character of the standard base64 alphabet for a sextet value. -/
def b64char (s : Nat) : Nat :=
  if s < 26 then 65 + s
  else if s < 52 then 97 + (s - 26)
  else if s < 62 then 48 + (s - 52)
  else if s = 62 then 43
  else 47

/-- Sextet value of a base64 alphabet character; `none` on characters
outside the alphabet (this is how `atob` raises on bad input). -/
def b64val (c : Nat) : Option Nat :=
  if 65 ≤ c ∧ c ≤ 90 then some (c - 65)
  else if 97 ≤ c ∧ c ≤ 122 then some (c - 97 + 26)
  else if 48 ≤ c ∧ c ≤ 57 then some (c - 48 + 52)
  else if c = 43 then some 62
  else if c = 47 then some 63
  else none

/-- Browser `btoa`: base64 encoding of a latin-1 string, with `=` padding. -/
def btoa : List Nat → List Nat
  | [] => []
  | [b0] => [b64char (b0 / 4), b64char (b0 % 4 * 16), 61, 61]
  | [b0, b1] => [b64char (b0 / 4), b64char (b0 % 4 * 16 + b1 / 16), b64char (b1 % 16 * 4), 61]
  | b0 :: b1 :: b2 :: rest =>
    b64char (b0 / 4) :: b64char (b0 % 4 * 16 + b1 / 16) ::
      b64char (b1 % 16 * 4 + b2 / 64) :: b64char (b2 % 64) :: btoa rest

/-- Browser `atob` on canonical padded base64 input: decodes four characters
at a time, accepts `=` padding only in the final group, ignores leftover
bits, and returns `none` (the thrown error) on malformed input. -/
def atob : List Nat → Option (List Nat)
  | [] => some []
  | c0 :: c1 :: c2 :: c3 :: rest =>
    if c2 = 61 ∧ c3 = 61 ∧ rest = [] then
      match b64val c0, b64val c1 with
      | some s0, some s1 => some [s0 * 4 + s1 / 16]
      | _, _ => none
    else if c3 = 61 ∧ rest = [] then
      match b64val c0, b64val c1, b64val c2 with
      | some s0, some s1, some s2 => some [s0 * 4 + s1 / 16, s1 % 16 * 16 + s2 / 4]
      | _, _, _ => none
    else
      match b64val c0, b64val c1, b64val c2, b64val c3, atob rest with
      | some s0, some s1, some s2, some s3, some bs =>
        some ((s0 * 4 + s1 / 16) :: (s1 % 16 * 16 + s2 / 4) :: (s2 % 4 * 64 + s3) :: bs)
      | _, _, _, _, _ => none
  | _ => none

/-! ## Character shifting and numeric string rendering -/

/-- Step 2 of `encryptPassword`: shift every code unit up by 7
(`String.fromCharCode(char + 7)`, which wraps at 65536). -/
def caesarUp (l : List Nat) : List Nat := l.map fun c => (c + 7) % 65536

/-- Step 3 of `decryptPassword`: shift every code unit down by 7
(`String.fromCharCode(char - 7)`, which wraps at 65536). -/
def caesarDown (l : List Nat) : List Nat := l.map fun c => (c + 65529) % 65536

/-- Digit character for bases up to 36, lowercase, as in
`Number.prototype.toString`. -/
def digitChar (d : Nat) : Nat := if d < 10 then 48 + d else 97 + (d - 10)

/-- Accumulator loop of base-36 rendering; the first argument is fuel that
dominates the number of digits, keeping the recursion structural. -/
def toStr36Go : Nat → Nat → List Nat → List Nat
  | 0, _, acc => acc
  | fuel + 1, n, acc =>
    if n = 0 then acc else toStr36Go fuel (n / 36) (digitChar (n % 36) :: acc)

/-- JavaScript `n.toString(36)` for a nonnegative integer. -/
def toStr36 (n : Nat) : List Nat := if n = 0 then [48] else toStr36Go n n []

/-- Accumulator loop of base-16 rendering; the first argument is fuel that
dominates the number of digits, keeping the recursion structural. -/
def toStr16Go : Nat → Nat → List Nat → List Nat
  | 0, _, acc => acc
  | fuel + 1, n, acc =>
    if n = 0 then acc else toStr16Go fuel (n / 16) (digitChar (n % 16) :: acc)

/-- JavaScript `n.toString(16)` for a nonnegative integer. -/
def toStr16 (n : Nat) : List Nat := if n = 0 then [48] else toStr16Go n n []

/-- JavaScript `s.slice(-4)`: the last four characters (the whole string if
it is shorter). -/
def sliceLast4 (l : List Nat) : List Nat := l.drop (l.length - 4)

/-! ## The password hash (`QueueLogin.hashPassword`, copied in
`distributor.js`) -/

/-- Wrap an integer to the signed 32-bit range, as the JavaScript bitwise
operators do. -/
def toInt32 (x : Int) : Int := (x + 2147483648) % 4294967296 - 2147483648

/-- One iteration of the hash loop:
`hash = ((hash << 5) - hash) + char; hash = hash & hash`. -/
def hashStep (h : Int) (c : Nat) : Int := toInt32 (toInt32 (h * 32) - h + (c : Int))

/-- The hash loop over the characters of the password. -/
def hashLoop : List Nat → Int → Int
  | [], h => h
  | c :: cs, h => hashLoop cs (hashStep h c)

/-- `QueueLogin.hashPassword`: 31-based rolling hash wrapped to 32 bits,
rendered as `Math.abs(hash).toString(16)`. -/
def hashPassword (p : List Nat) : List Nat := toStr16 (hashLoop p 0).natAbs

/-! ## Password obfuscation (`QueueLogin.encryptPassword` /
`decryptPassword`, the latter copied in `distributor.js`) -/

/-- Code units of the literal prefix string of `encryptPassword`. -/
def qmsTag : List Nat := [81, 77, 83, 95]

/-- `QueueLogin.encryptPassword`: base64, shift by 7, base64 again, then the
fixed prefix and a suffix of an underscore plus the last four base-36 digits
of `Date.now()` (here the parameter `nowMs`). -/
def encryptPassword (password : List Nat) (nowMs : Nat) : List Nat :=
  qmsTag ++ btoa (caesarUp (btoa password)) ++ (95 :: sliceLast4 (toStr36 nowMs))

/-- JavaScript `s.lastIndexOf(c)` returning `none` for -1. -/
def lastIndexOf (l : List Nat) (c : Nat) : Option Nat :=
  match l with
  | [] => none
  | a :: as =>
    match lastIndexOf as c with
    | some i => some (i + 1)
    | none => if a = c then some 0 else none

/-- Step 1 of `decryptPassword`: strip the `QMS_` tag if present, then strip
from the last underscore on, provided its index is positive. -/
def stripWrapper (e : List Nat) : List Nat :=
  let cleaned := if e.take 4 = qmsTag then e.drop 4 else e
  match lastIndexOf cleaned 95 with
  | some i => if 0 < i then cleaned.take i else cleaned
  | none => cleaned

/-- `QueueLogin.decryptPassword` (identical copy in `distributor.js`):
unwrap, base64-decode, shift down by 7, base64-decode again; any failure is
caught and yields `null`, here `none`. -/
def decryptPassword (e : List Nat) : Option (List Nat) :=
  match atob (stripWrapper e) with
  | none => none
  | some shifted => atob (caesarDown shifted)

/-- Allowed password characters (`/^[a-zA-Z0-9]{4,20}$/` in
`QueueLogin.handleLogin`). -/
def isPasswordChar (c : Nat) : Bool :=
  decide ((48 ≤ c ∧ c ≤ 57) ∨ (65 ≤ c ∧ c ≤ 90) ∨ (97 ≤ c ∧ c ≤ 122))

/-! ## Deep-link verification (`QueueManager.verifyAuthentication`) -/

/-- `QueueManager.verifyAuthentication`: `storedPassword` and `storedHash`
are the Credential Record fields `password` and `passwordHash`;
`providedHash`, `plain` and `providedStored` are the three parts of the
parsed composite URL token. -/
def verifyAuthentication (storedPassword storedHash providedHash plain providedStored :
    List Nat) : Bool :=
  if storedHash ≠ providedHash then false
  else if storedPassword ≠ providedStored then false
  else if storedPassword ≠ [] ∧ storedPassword.take 4 = qmsTag then
    decide (decryptPassword storedPassword = some plain)
  else if storedHash ≠ [] then decide (hashPassword plain = storedHash)
  else false

/-! ## Queue state documents (`SimpleQueueBackup` with queue-name support) -/

/-- One entry of the `queues` array: `{id, number, timestamp, served}`. -/
structure Ticket where
  id : Nat
  number : Nat
  timestamp : Nat
  served : Bool
deriving DecidableEq

/-- The per-queue backup document. -/
structure QueueData where
  queueName : List Nat
  currentQueue : Nat
  totalQueues : Nat
  callingQueue : Nat
  lastUpdated : Nat
  queues : List Ticket
deriving DecidableEq

/-- Number of tickets whose `served` flag is false, as computed by
`this.data.queues.filter(q => !q.served).length`. -/
def unservedCount (l : List Ticket) : Nat := (l.filter fun t => !t.served).length

/-- `SimpleQueueBackup.saveBackup`: refreshes `lastUpdated` and rewrites
`queueName` on every persist. -/
def saveBackup (d : QueueData) (name : List Nat) (now : Nat) : QueueData :=
  { d with lastUpdated := now, queueName := name }

/-- `SimpleQueueBackup.getDefaultData`. -/
def getDefaultData (name : List Nat) (now : Nat) : QueueData :=
  ⟨name, 0, 0, 0, now, []⟩

/-- `SimpleQueueBackup.addQueue`: append a fresh unserved ticket, set
`currentQueue` to its number, recompute `totalQueues`, persist, and return
the ticket. -/
def addQueue (d : QueueData) (queueNumber id ts : Nat) (name : List Nat) (now : Nat) :
    QueueData × Ticket :=
  let q : Ticket := ⟨id, queueNumber, ts, false⟩
  let qs := d.queues ++ [q]
  (saveBackup
    { d with queues := qs, currentQueue := queueNumber, totalQueues := unservedCount qs }
    name now, q)

/-- `this.data.queues.find(q => q.number === queueNumber && !q.served)`
followed by the in-place mutation `queue.served = true`: returns the list
with the first match marked, and the mutated ticket. -/
def markFirst : List Ticket → Nat → Option (List Ticket × Ticket)
  | [], _ => none
  | t :: ts, n =>
    if t.number = n ∧ t.served = false then
      some ({ t with served := true } :: ts, { t with served := true })
    else
      match markFirst ts n with
      | some (ts', q) => some (t :: ts', q)
      | none => none

/-- `SimpleQueueBackup.endQueue`: mark the first unserved ticket with the
given number as served, set `callingQueue`, recompute `totalQueues`; in
every case persist via `saveBackup` and return the found ticket (or
`undefined`, here `none`). -/
def endQueue (d : QueueData) (queueNumber : Nat) (name : List Nat) (now : Nat) :
    QueueData × Option Ticket :=
  match markFirst d.queues queueNumber with
  | some (qs, q) =>
    (saveBackup
      { d with queues := qs, callingQueue := queueNumber, totalQueues := unservedCount qs }
      name now, some q)
  | none => (saveBackup d name now, none)

/-- `SimpleQueueBackup.resetQueues`: replace the document with the default
one and persist. -/
def resetQueues (name : List Nat) (t now : Nat) : QueueData :=
  saveBackup (getDefaultData name t) name now

/-! ## Distributor controller (`QueueManager`), acting on the synced
document -/

/-- `QueueManager.generateNewQueue` with the backup present: the new number
is `currentQueue + 1` and the document is updated through `addQueue`. -/
def issueNext (d : QueueData) (id ts : Nat) (name : List Nat) (now : Nat) : QueueData :=
  (addQueue d (d.currentQueue + 1) id ts name now).1

/-- `QueueManager.callNextQueue` with the backup present: a guarded no-op
when `callingQueue >= currentQueue`, otherwise `endQueue(callingQueue + 1)`. -/
def callNext (d : QueueData) (name : List Nat) (now : Nat) : QueueData :=
  if d.currentQueue ≤ d.callingQueue then d
  else (endQueue d (d.callingQueue + 1) name now).1

/-- States of the distributor state machine: every finite interleaving of
ticket issuance, calling the next number, and resets, from a fresh
document. -/
inductive Reachable (name : List Nat) : QueueData → Prop where
  | init (now : Nat) : Reachable name (getDefaultData name now)
  | issue {d : QueueData} (id ts now : Nat) :
      Reachable name d → Reachable name (issueNext d id ts name now)
  | call {d : QueueData} (now : Nat) :
      Reachable name d → Reachable name (callNext d name now)
  | reset {d : QueueData} (t now : Nat) :
      Reachable name d → Reachable name (resetQueues name t now)

/-- States reachable through arbitrary raw document operations
(`addQueue` with any number, `endQueue` with any number, `callNextQueue`,
`resetQueues`), from a fresh document. -/
inductive DocReachable (name : List Nat) : QueueData → Prop where
  | init (now : Nat) : DocReachable name (getDefaultData name now)
  | add {d : QueueData} (qn id ts now : Nat) :
      DocReachable name d → DocReachable name (addQueue d qn id ts name now).1
  | mark {d : QueueData} (qn now : Nat) :
      DocReachable name d → DocReachable name (endQueue d qn name now).1
  | call {d : QueueData} (now : Nat) :
      DocReachable name d → DocReachable name (callNext d name now)
  | reset {d : QueueData} (t now : Nat) :
      DocReachable name d → DocReachable name (resetQueues name t now)

/-- Folding a sequence of `generateNewQueue` operations, each with its own
ticket id, issuance timestamp and persist time. -/
def issueRun (d : QueueData) (name : List Nat) : List (Nat × Nat × Nat) → QueueData
  | [] => d
  | (id, ts, now) :: ps => issueRun (issueNext d id ts name now) name ps

/-! ## Credential store and server handlers (`server.js`) -/

/-- One Credential Record of the auth collection. -/
structure CredRecord where
  password : List Nat
  passwordHash : List Nat
  created : Nat
  lastAccessed : Nat
deriving DecidableEq

/-- The whole `queue-auth.json` collection: queue name keyed records plus
the collection timestamp. -/
structure AuthData where
  queues : List (List Nat × CredRecord)
  lastUpdated : Nat
deriving DecidableEq

/-- Minimal shape of an HTTP reply: status code, and whether the JSON body
was a `success` body rather than an `error` body. -/
structure HttpResponse where
  status : Nat
  success : Bool
deriving DecidableEq

/-- `QueueServer.handleDeleteQueueAuth`: 404 if the auth file or the record
is missing; otherwise delete the record, unlink the file when no records
remain, else rewrite it with a fresh `lastUpdated`. Returns the new file
state and the reply. -/
def handleDeleteQueueAuth (file : Option AuthData) (queueName : List Nat) (now : Nat) :
    Option AuthData × HttpResponse :=
  match file with
  | none => (none, ⟨404, false⟩)
  | some a =>
    if (a.queues.find? fun p => decide (p.1 = queueName)).isSome then
      let queues' := a.queues.filter fun p => !decide (p.1 = queueName)
      if queues' = [] then (none, ⟨200, true⟩)
      else (some ⟨queues', now⟩, ⟨200, true⟩)
    else (some a, ⟨404, false⟩)

/-- `QueueServer.removeQueueFromAuthFile` (the cleanup-sweep variant):
same record removal and empty-collection unlink, but errors are only
logged, leaving the file untouched. -/
def removeQueueFromAuthFile (file : Option AuthData) (queueName : List Nat) (now : Nat) :
    Option AuthData :=
  match file with
  | none => none
  | some a =>
    if (a.queues.find? fun p => decide (p.1 = queueName)).isSome then
      let queues' := a.queues.filter fun p => !decide (p.1 = queueName)
      if queues' = [] then none else some ⟨queues', now⟩
    else some a

/-- `QueueServer.handleDeleteAuth`: deletes the whole auth file; a missing
file is reported as success (already deleted). -/
def handleDeleteAuth (file : Option AuthData) : Option AuthData × HttpResponse :=
  match file with
  | none => (none, ⟨200, true⟩)
  | some _ => (none, ⟨200, true⟩)

/-- `QueueServer.handleDeleteQueueBackup`: deletes one backup file; a
missing file is reported as success (already deleted). -/
def handleDeleteQueueBackup (file : Option QueueData) : Option QueueData × HttpResponse :=
  match file with
  | none => (none, ⟨200, true⟩)
  | some _ => (none, ⟨200, true⟩)

/-! ## Display page (`QueueDisplay`) -/

/-- Modelled from the spec: `SimpleQueueBackup.getQueue`, called by the
display page but absent from the sources in `src/`; per the data model of
the spec it looks the ticket with the given number up in the ticket list. -/
def getQueue (d : QueueData) (n : Nat) : Option Ticket :=
  d.queues.find? fun t => decide (t.number = n)

/-- The two shapes of the viewer status rendered by
`QueueDisplay.updateUserQueueStatus`. -/
inductive UserStatus where
  | called (wait : Option Int)
  | ahead (remaining : Nat) (wait : Option Int)
deriving DecidableEq

/-- `QueueDisplay.getTotalWaitingTime` at the first render after the state
change: `null` without an issuance timestamp; otherwise the elapsed span
ends at the time of the last call once the ticket is served, and at the
current time before that. -/
def getTotalWaitingTime (userQueueTimestamp : Option Nat) (userQueueServed : Bool)
    (lastCalledTime now : Nat) : Option Int :=
  match userQueueTimestamp with
  | none => none
  | some t => some (((if userQueueServed then lastCalledTime else now : Nat) : Int) - (t : Int))

/-- `QueueDisplay.updateUserQueueStatus`: called banner when the own number
is at most `callingQueue`, otherwise the number of tickets ahead; both carry
the total waiting time. -/
def updateUserQueueStatus (userQueueNumber callingQueue : Nat)
    (userQueueTimestamp : Option Nat) (userQueueServed : Bool)
    (lastCalledTime now : Nat) : UserStatus :=
  let w := getTotalWaitingTime userQueueTimestamp userQueueServed lastCalledTime now
  if userQueueNumber ≤ callingQueue then .called w
  else .ahead (userQueueNumber - callingQueue) w

/-- One refresh of the viewer status from the loaded document
(`loadQueueData` followed by `updateUserQueueStatus`): the own ticket is
looked up to supply its issuance timestamp and served flag. -/
def displayRender (d : QueueData) (own lastCalledTime now : Nat) : UserStatus :=
  match getQueue d own with
  | some t =>
    updateUserQueueStatus own d.callingQueue (some t.timestamp) t.served lastCalledTime now
  | none => updateUserQueueStatus own d.callingQueue none false lastCalledTime now

/-! ## C1: the deep-link grant condition -/

/-- Grant condition exactly as the spec words it for the deep-link path:
all three of stored-code-equals-provided-code, stored-form-equals-provided
-form, and (reversed obfuscation yields the plaintext OR the digest of the
plaintext equals the stored verification code). -/
def specGrantDeepLink (storedPassword storedHash providedHash plain providedStored :
    List Nat) : Bool :=
  decide (storedHash = providedHash) && decide (storedPassword = providedStored) &&
    (decide (decryptPassword storedPassword = some plain) ||
      decide (hashPassword plain = storedHash))

/-- Grant condition as amended: the two equality checks as before, but the
third check is ordered, not a disjunction: when the stored obfuscated form
bears the `QMS_` tag, only the reversed obfuscation is consulted; otherwise,
when a verification code is stored, only the digest is consulted. -/
def specGrantDeepLinkAmended (storedPassword storedHash providedHash plain providedStored :
    List Nat) : Bool :=
  decide (storedHash = providedHash) && decide (storedPassword = providedStored) &&
    (if storedPassword ≠ [] ∧ storedPassword.take 4 = qmsTag then
      decide (decryptPassword storedPassword = some plain)
    else if storedHash ≠ [] then decide (hashPassword plain = storedHash)
    else false)

/-! ## The reachable-state invariant -/

/-- Invariant of reachable documents: `calling` never exceeds the last
issued number, the ticket list carries exactly the numbers `1..currentQueue`
in order with a ticket served precisely when its number is at most
`calling`, and the outstanding counter matches the unserved count. -/
def QueueInv (d : QueueData) : Prop :=
  d.callingQueue ≤ d.currentQueue ∧
  d.queues.map (fun t => (t.number, t.served)) =
    (List.range' 1 d.currentQueue).map (fun j => (j, decide (j ≤ d.callingQueue))) ∧
  d.totalQueues = unservedCount d.queues

/-! ## Lemmas about the base64 pair -/

theorem b64char_le (s : Nat) : b64char s ≤ 122 := by
  unfold b64char; split_ifs <;> omega

theorem b64char_ne_61 (s : Nat) : b64char s ≠ 61 := by
  unfold b64char; split_ifs <;> omega

theorem b64char_ne_95 (s : Nat) : b64char s ≠ 95 := by
  unfold b64char; split_ifs <;> omega

theorem b64val_b64char : ∀ s < 64, b64val (b64char s) = some s := by decide

theorem atob_btoa : ∀ l : List Nat, (∀ c ∈ l, c < 256) → atob (btoa l) = some l
  | [], _ => rfl
  | [b0], h => by
    have h0 : b0 < 256 := h b0 (by simp)
    have e0 := b64val_b64char (b0 / 4) (by omega)
    have e1 := b64val_b64char (b0 % 4 * 16) (by omega)
    simp only [btoa, atob, e0, e1]
    rw [if_pos (by simp)]
    have r0 : b0 / 4 * 4 + b0 % 4 * 16 / 16 = b0 := by omega
    rw [r0]
  | [b0, b1], h => by
    have h0 : b0 < 256 := h b0 (by simp)
    have h1 : b1 < 256 := h b1 (by simp)
    have e0 := b64val_b64char (b0 / 4) (by omega)
    have e1 := b64val_b64char (b0 % 4 * 16 + b1 / 16) (by omega)
    have e2 := b64val_b64char (b1 % 16 * 4) (by omega)
    simp only [btoa, atob, e0, e1, e2]
    rw [if_neg (by simp [b64char_ne_61]), if_pos (by simp)]
    have r0 : b0 / 4 * 4 + (b0 % 4 * 16 + b1 / 16) / 16 = b0 := by omega
    have r1 : (b0 % 4 * 16 + b1 / 16) % 16 * 16 + b1 % 16 * 4 / 4 = b1 := by omega
    rw [r0, r1]
  | b0 :: b1 :: b2 :: rest, h => by
    have h0 : b0 < 256 := h b0 (by simp)
    have h1 : b1 < 256 := h b1 (by simp)
    have h2 : b2 < 256 := h b2 (by simp)
    have ih := atob_btoa rest (fun c hc => h c (by simp [hc]))
    have e0 := b64val_b64char (b0 / 4) (by omega)
    have e1 := b64val_b64char (b0 % 4 * 16 + b1 / 16) (by omega)
    have e2 := b64val_b64char (b1 % 16 * 4 + b2 / 64) (by omega)
    have e3 := b64val_b64char (b2 % 64) (by omega)
    simp only [btoa, atob, e0, e1, e2, e3, ih]
    rw [if_neg (by simp [b64char_ne_61]), if_neg (by simp [b64char_ne_61])]
    have r0 : b0 / 4 * 4 + (b0 % 4 * 16 + b1 / 16) / 16 = b0 := by omega
    have r1 : (b0 % 4 * 16 + b1 / 16) % 16 * 16 + (b1 % 16 * 4 + b2 / 64) / 4 = b1 := by
      omega
    have r2 : (b1 % 16 * 4 + b2 / 64) % 4 * 64 + b2 % 64 = b2 := by omega
    rw [r0, r1, r2]

theorem mem_btoa_le : ∀ (l : List Nat) (c : Nat), c ∈ btoa l → c ≤ 122
  | [], c, hc => by simp [btoa] at hc
  | [b0], c, hc => by
    simp only [btoa, List.mem_cons, List.not_mem_nil, or_false] at hc
    rcases hc with rfl | rfl | rfl | rfl
    exacts [b64char_le _, b64char_le _, by omega, by omega]
  | [b0, b1], c, hc => by
    simp only [btoa, List.mem_cons, List.not_mem_nil, or_false] at hc
    rcases hc with rfl | rfl | rfl | rfl
    exacts [b64char_le _, b64char_le _, b64char_le _, by omega]
  | b0 :: b1 :: b2 :: rest, c, hc => by
    simp only [btoa, List.mem_cons] at hc
    rcases hc with rfl | rfl | rfl | rfl | h
    exacts [b64char_le _, b64char_le _, b64char_le _, b64char_le _,
      mem_btoa_le rest c h]

theorem mem_btoa_ne_95 : ∀ (l : List Nat) (c : Nat), c ∈ btoa l → c ≠ 95
  | [], c, hc => by simp [btoa] at hc
  | [b0], c, hc => by
    simp only [btoa, List.mem_cons, List.not_mem_nil, or_false] at hc
    rcases hc with rfl | rfl | rfl | rfl
    exacts [b64char_ne_95 _, b64char_ne_95 _, by omega, by omega]
  | [b0, b1], c, hc => by
    simp only [btoa, List.mem_cons, List.not_mem_nil, or_false] at hc
    rcases hc with rfl | rfl | rfl | rfl
    exacts [b64char_ne_95 _, b64char_ne_95 _, b64char_ne_95 _, by omega]
  | b0 :: b1 :: b2 :: rest, c, hc => by
    simp only [btoa, List.mem_cons] at hc
    rcases hc with rfl | rfl | rfl | rfl | h
    exacts [b64char_ne_95 _, b64char_ne_95 _, b64char_ne_95 _, b64char_ne_95 _,
      mem_btoa_ne_95 rest c h]

theorem btoa_ne_nil : ∀ l : List Nat, l ≠ [] → btoa l ≠ []
  | [], h => absurd rfl h
  | [_], _ => by simp [btoa]
  | [_, _], _ => by simp [btoa]
  | _ :: _ :: _ :: _, _ => by simp [btoa]

/-! ## Lemmas about the wrapper stripping -/

theorem lastIndexOf_eq_none : ∀ (l : List Nat) (c : Nat), (∀ x ∈ l, x ≠ c) →
    lastIndexOf l c = none
  | [], _, _ => rfl
  | a :: as, c, h => by
    have ht := lastIndexOf_eq_none as c fun x hx => h x (List.mem_cons_of_mem a hx)
    rw [lastIndexOf, ht]
    exact if_neg (h a (List.mem_cons_self a as))

theorem lastIndexOf_append_cons (B S : List Nat) (c : Nat) (hB : ∀ x ∈ B, x ≠ c)
    (hS : ∀ x ∈ S, x ≠ c) : lastIndexOf (B ++ c :: S) c = some B.length := by
  induction B with
  | nil =>
    rw [List.nil_append, lastIndexOf, lastIndexOf_eq_none S c hS]
    simp
  | cons a as ih =>
    have ih' := ih fun x hx => hB x (List.mem_cons_of_mem a hx)
    rw [List.cons_append, lastIndexOf, ih']
    simp

theorem take_len_append {α : Type} (l1 l2 : List α) : (l1 ++ l2).take l1.length = l1 := by
  induction l1 with
  | nil => simp
  | cons a as ih => simp [ih]

theorem drop_len_append {α : Type} (l1 l2 : List α) : (l1 ++ l2).drop l1.length = l2 := by
  induction l1 with
  | nil => simp
  | cons a as ih => simp [ih]

theorem caesarDown_caesarUp (l : List Nat) (h : ∀ c ∈ l, c < 65529) :
    caesarDown (caesarUp l) = l := by
  induction l with
  | nil => rfl
  | cons a as ih =>
    have ha : a < 65529 := h a (List.mem_cons_self a as)
    have has := ih fun c hc => h c (List.mem_cons_of_mem a hc)
    simp only [caesarUp, caesarDown, List.map_cons] at *
    rw [has]
    have : ((a + 7) % 65536 + 65529) % 65536 = a := by omega
    rw [this]

theorem toStr36Go_ne_95 : ∀ (fuel n : Nat) (acc : List Nat), (∀ c ∈ acc, c ≠ 95) →
    ∀ c ∈ toStr36Go fuel n acc, c ≠ 95
  | 0, _, _, h => by
    rw [toStr36Go]
    exact h
  | fuel + 1, n, acc, h => by
    rw [toStr36Go]
    split_ifs with hn
    · exact h
    refine toStr36Go_ne_95 fuel (n / 36) _ ?_
    intro c hc
    rcases List.mem_cons.1 hc with rfl | hmem
    · have hlt : n % 36 < 36 := Nat.mod_lt _ (by omega)
      unfold digitChar
      split_ifs <;> omega
    · exact h c hmem

theorem toStr36_ne_95 (n : Nat) : ∀ c ∈ toStr36 n, c ≠ 95 := by
  unfold toStr36
  split_ifs
  · intro c hc
    simp only [List.mem_singleton] at hc
    omega
  · exact toStr36Go_ne_95 n n [] (by intro c hc; simp at hc)

theorem stripWrapper_encrypt (p : List Nat) (nowMs : Nat) (hp : p ≠ []) :
    stripWrapper (encryptPassword p nowMs) = btoa (caesarUp (btoa p)) := by
  have hB95 : ∀ x ∈ btoa (caesarUp (btoa p)), x ≠ 95 := fun x hx =>
    mem_btoa_ne_95 _ x hx
  have hS95 : ∀ x ∈ sliceLast4 (toStr36 nowMs), x ≠ 95 := fun x hx =>
    toStr36_ne_95 nowMs x (List.drop_subset _ _ hx)
  have hBne : btoa (caesarUp (btoa p)) ≠ [] := by
    refine btoa_ne_nil _ ?_
    simp only [caesarUp, ne_eq, List.map_eq_nil_iff]
    exact btoa_ne_nil p hp
  have hBpos : 0 < (btoa (caesarUp (btoa p))).length := List.length_pos.2 hBne
  unfold stripWrapper encryptPassword
  have htag : qmsTag.length = 4 := rfl
  rw [List.append_assoc, ← htag, take_len_append, if_pos rfl, drop_len_append]
  simp only [lastIndexOf_append_cons _ _ _ hB95 hS95, if_pos hBpos, take_len_append]

/-- Supporting fact for the round trip: code units after the Caesar shift
stay below 256, so the inner base64 decode applies. -/
theorem mem_caesarUp_btoa_lt (l : List Nat) : ∀ c ∈ caesarUp (btoa l), c < 256 := by
  intro c hc
  simp only [caesarUp, List.mem_map] at hc
  obtain ⟨x, hx, rfl⟩ := hc
  have := mem_btoa_le _ x hx
  omega

/-! ## The C6 round trip -/

/-- C6: de-obfuscating an obfuscated password of the allowed character
class returns exactly the original password, for every issuance
timestamp. -/
theorem decryptPassword_encryptPassword (p : List Nat) (nowMs : Nat)
    (hlen4 : 4 ≤ p.length) (_hlen20 : p.length ≤ 20)
    (hchar : ∀ c ∈ p, isPasswordChar c = true) :
    decryptPassword (encryptPassword p nowMs) = some p := by
  have hp : p ≠ [] := by intro h; rw [h] at hlen4; simp at hlen4
  have hplt : ∀ c ∈ p, c < 256 := by
    intro c hc
    have := hchar c hc
    simp only [isPasswordChar, decide_eq_true_eq] at this
    omega
  have hble : ∀ c ∈ btoa p, c < 65529 := fun c hc => by
    have := mem_btoa_le p c hc; omega
  unfold decryptPassword
  rw [stripWrapper_encrypt p nowMs hp,
    atob_btoa (caesarUp (btoa p)) (mem_caesarUp_btoa_lt p)]
  show atob (caesarDown (caesarUp (btoa p))) = some p
  rw [caesarDown_caesarUp (btoa p) hble, atob_btoa p hplt]

/-- C6 witness: the round trip evaluated at the password `abcd` and a
concrete timestamp. -/
theorem decryptPassword_encryptPassword_witness :
    decryptPassword (encryptPassword [97, 98, 99, 100] 1712345678901) =
      some [97, 98, 99, 100] :=
  decryptPassword_encryptPassword [97, 98, 99, 100] 1712345678901 (by decide) (by decide)
    (by decide)

/-- C1 counterexample: a Credential Record whose stored form bears the
`QMS_` tag but does not reverse to the plaintext, while the digest of the
plaintext does equal the stored verification code: the claimed disjunction
grants access, yet `verifyAuthentication` denies it. -/
theorem verifyAuthentication_counterexample :
    specGrantDeepLink [81, 77, 83, 95, 37] (hashPassword [97, 97, 97, 97])
        (hashPassword [97, 97, 97, 97]) [97, 97, 97, 97] [81, 77, 83, 95, 37] = true ∧
      verifyAuthentication [81, 77, 83, 95, 37] (hashPassword [97, 97, 97, 97])
        (hashPassword [97, 97, 97, 97]) [97, 97, 97, 97] [81, 77, 83, 95, 37] = false := by
  constructor <;> decide

/-- C1 as amended: on every input, the deep-link verification of the
distributor page grants access exactly under the amended condition. -/
theorem verifyAuthentication_amended (storedPassword storedHash providedHash plain
    providedStored : List Nat) :
    verifyAuthentication storedPassword storedHash providedHash plain providedStored =
      specGrantDeepLinkAmended storedPassword storedHash providedHash plain
        providedStored := by
  unfold verifyAuthentication specGrantDeepLinkAmended
  split_ifs with h1 h2 h3 h4 <;> simp_all

/-! ## Lemmas about `markFirst` -/

theorem markFirst_eq_none_iff (l : List Ticket) (n : Nat) :
    markFirst l n = none ↔ ∀ t ∈ l, ¬(t.number = n ∧ t.served = false) := by
  induction l with
  | nil => simp [markFirst]
  | cons t ts ih =>
    rw [markFirst]
    split_ifs with h
    · constructor
      · intro hc; exact absurd hc (by simp)
      · intro hall; exact absurd h (hall t (List.mem_cons_self t ts))
    · cases hm : markFirst ts n with
      | some p =>
        rcases p with ⟨ts1, q1⟩
        constructor
        · intro hc; exact absurd hc (by simp)
        · intro hall
          have hnone : markFirst ts n = none :=
            ih.2 fun u hu => hall u (List.mem_cons_of_mem t hu)
          rw [hm] at hnone
          exact absurd hnone (by simp)
      | none =>
        constructor
        · intro _ u hu
          rcases List.mem_cons.1 hu with rfl | hmem
          · exact h
          · exact ih.1 hm u hmem
        · intro _; rfl

theorem markFirst_some_spec : ∀ (l : List Ticket) (n : Nat) (qs : List Ticket) (q : Ticket),
    markFirst l n = some (qs, q) →
    ∃ l1 t l2, l = l1 ++ t :: l2 ∧ (∀ u ∈ l1, ¬(u.number = n ∧ u.served = false)) ∧
      t.number = n ∧ t.served = false ∧ q = { t with served := true } ∧
      qs = l1 ++ { t with served := true } :: l2
  | [], n, qs, q, h => by simp [markFirst] at h
  | t :: ts, n, qs, q, h => by
    rw [markFirst] at h
    split_ifs at h with hcond
    · simp only [Option.some.injEq, Prod.mk.injEq] at h
      obtain ⟨hqs, hq⟩ := h
      exact ⟨[], t, ts, by simp, by simp, hcond.1, hcond.2, hq.symm, hqs.symm⟩
    · cases hm : markFirst ts n with
      | some p =>
        rcases p with ⟨ts1, q1⟩
        rw [hm] at h
        simp only [Option.some.injEq, Prod.mk.injEq] at h
        obtain ⟨hqs, hq⟩ := h
        obtain ⟨l1, t', l2, e1, e2, e3, e4, e5, e6⟩ := markFirst_some_spec ts n ts1 q1 hm
        refine ⟨t :: l1, t', l2, by rw [e1]; rfl, ?_, e3, e4, by rw [← hq, e5],
          by rw [← hqs, e6]; rfl⟩
        intro u hu
        rcases List.mem_cons.1 hu with rfl | hmem
        · exact hcond
        · exact e2 u hmem
      | none => rw [hm] at h; exact absurd h (by simp)

theorem markFirst_run : ∀ (l : List Ticket) (s cal : Nat),
    l.map (fun t => (t.number, t.served)) =
      (List.range' s l.length).map (fun j => (j, decide (j ≤ cal))) →
    s ≤ cal + 1 → cal + 1 < s + l.length →
    ∃ qs q, markFirst l (cal + 1) = some (qs, q) ∧
      qs.map (fun t => (t.number, t.served)) =
        (List.range' s l.length).map (fun j => (j, decide (j ≤ cal + 1)))
  | [], s, cal, _, hs, hlt => by
    exfalso
    simp only [List.length_nil] at hlt
    omega
  | t :: ts, s, cal, h, hs, hlt => by
    simp only [List.length_cons, List.range'_succ, List.map_cons, List.cons.injEq,
      Prod.mk.injEq] at h
    obtain ⟨⟨hn, hsrv⟩, htl⟩ := h
    by_cases hcase : s = cal + 1
    · subst hcase
      have hserv_false : t.served = false := by
        rw [hsrv, decide_eq_false (by omega : ¬(cal + 1 ≤ cal))]
      rw [markFirst, if_pos ⟨hn, hserv_false⟩]
      refine ⟨_, _, rfl, ?_⟩
      simp only [List.length_cons, List.range'_succ, List.map_cons, List.cons.injEq,
        Prod.mk.injEq]
      refine ⟨⟨hn, by rw [decide_eq_true (by omega : cal + 1 ≤ cal + 1)]⟩, ?_⟩
      · rw [htl]
        refine List.map_congr_left fun j hj => ?_
        have hjmem : cal + 1 + 1 ≤ j ∧ j < cal + 1 + 1 + ts.length := by
          have := hj
          rw [List.mem_range'_1] at this
          omega
        rw [decide_eq_false (by omega : ¬(j ≤ cal)),
          decide_eq_false (by omega : ¬(j ≤ cal + 1))]
    · have hsc : s ≤ cal := by omega
      have hserv_true : t.served = true := by
        rw [hsrv, decide_eq_true hsc]
      rw [markFirst, if_neg (by
        intro hco
        exact hcase (by rw [← hn, hco.1]))]
      have hlt' : cal + 1 < s + 1 + ts.length := by
        simp only [List.length_cons] at hlt
        omega
      obtain ⟨qs, q, hmk, hshape⟩ := markFirst_run ts (s + 1) cal htl (by omega) hlt'
      rw [hmk]
      refine ⟨t :: qs, q, rfl, ?_⟩
      simp only [List.length_cons, List.range'_succ, List.map_cons, List.cons.injEq,
        Prod.mk.injEq]
      exact ⟨⟨hn, by rw [hserv_true, decide_eq_true (by omega : s ≤ cal + 1)]⟩, hshape⟩

/-! ## The reachable-state invariant -/

theorem reachable_inv {name : List Nat} {d : QueueData} (h : Reachable name d) :
    QueueInv d := by
  induction h with
  | init now =>
    exact ⟨Nat.le_refl 0, by simp [getDefaultData], rfl⟩
  | @issue d id ts now _ ih =>
    obtain ⟨h1, h2, h3⟩ := ih
    refine ⟨?_, ?_, ?_⟩
    · show d.callingQueue ≤ d.currentQueue + 1
      omega
    · show (d.queues ++ [Ticket.mk id (d.currentQueue + 1) ts false]).map
          (fun t => (t.number, t.served)) =
        (List.range' 1 (d.currentQueue + 1)).map
          (fun j => (j, decide (j ≤ d.callingQueue)))
      rw [List.map_append, h2, List.range'_concat, List.map_append]
      congr 1
      simp only [List.map_cons, List.map_nil, List.cons.injEq, Prod.mk.injEq, and_true]
      refine ⟨by omega, ?_⟩
      rw [decide_eq_false (by omega : ¬(1 + 1 * d.currentQueue ≤ d.callingQueue))]
    · show unservedCount (d.queues ++ [Ticket.mk id (d.currentQueue + 1) ts false]) =
        unservedCount (d.queues ++ [Ticket.mk id (d.currentQueue + 1) ts false])
      rfl
  | @call d now _ ih =>
    obtain ⟨h1, h2, h3⟩ := ih
    unfold callNext
    split_ifs with hguard
    · exact ⟨h1, h2, h3⟩
    · have hlen : d.queues.length = d.currentQueue := by
        have := congrArg List.length h2
        simpa using this
      obtain ⟨qs, q, hmk, hshape⟩ :=
        markFirst_run d.queues 1 d.callingQueue (by rw [hlen]; exact h2) (by omega)
          (by rw [hlen]; omega)
      unfold endQueue
      rw [hmk]
      refine ⟨?_, ?_, ?_⟩
      · show d.callingQueue + 1 ≤ d.currentQueue
        omega
      · show qs.map (fun t => (t.number, t.served)) =
          (List.range' 1 d.currentQueue).map
            (fun j => (j, decide (j ≤ d.callingQueue + 1)))
        rw [hshape, hlen]
      · show unservedCount qs = unservedCount qs
        rfl
  | @reset _ t now _ _ =>
    exact ⟨Nat.le_refl 0, by simp [resetQueues, getDefaultData, saveBackup], rfl⟩

/-! ## C2: the `callNext` guard -/

/-- C2: in every reachable queue state, `calling` is at most `nextIssued`;
calling the next number when they are equal returns the state unchanged (no
counter or ticket moves), and otherwise it increments `calling` by exactly
one. -/
theorem callNext_spec {name : List Nat} {d : QueueData} (h : Reachable name d) :
    d.callingQueue ≤ d.currentQueue ∧
    (∀ now, d.callingQueue = d.currentQueue → callNext d name now = d) ∧
    (∀ now, d.callingQueue < d.currentQueue →
      (callNext d name now).callingQueue = d.callingQueue + 1) := by
  obtain ⟨h1, h2, h3⟩ := reachable_inv h
  refine ⟨h1, ?_, ?_⟩
  · intro now heq
    unfold callNext
    rw [if_pos (by omega)]
  · intro now hlt
    unfold callNext
    rw [if_neg (by omega)]
    have hlen : d.queues.length = d.currentQueue := by
      have := congrArg List.length h2
      simpa using this
    obtain ⟨qs, q, hmk, hshape⟩ :=
      markFirst_run d.queues 1 d.callingQueue (by rw [hlen]; exact h2) (by omega)
        (by rw [hlen]; omega)
    unfold endQueue
    rw [hmk]
    rfl

/-- C2 witness: one issued ticket, then calling advances `calling` from 0
to 1. -/
theorem callNext_spec_witness :
    (callNext (issueNext (getDefaultData [] 0) 5 6 [] 7) [] 8).callingQueue =
      (issueNext (getDefaultData [] 0) 5 6 [] 7).callingQueue + 1 :=
  (callNext_spec (Reachable.issue 5 6 7 (Reachable.init 0))).2.2 8 (by decide)

/-! ## C3: issued ticket numbers -/

theorem issueRun_numbers (ps : List (Nat × Nat × Nat)) :
    ∀ (d : QueueData) (name : List Nat),
      d.queues.map (fun t => t.number) = List.range' 1 d.currentQueue →
      (issueRun d name ps).queues.map (fun t => t.number) =
        List.range' 1 (d.currentQueue + ps.length) ∧
      (issueRun d name ps).currentQueue = d.currentQueue + ps.length := by
  induction ps with
  | nil =>
    intro d name h
    exact ⟨by simpa using h, by simp [issueRun]⟩
  | cons p ps ih =>
    intro d name h
    rcases p with ⟨id, ts, now⟩
    rw [issueRun]
    have hstep : (issueNext d id ts name now).queues.map (fun t => t.number) =
        List.range' 1 (issueNext d id ts name now).currentQueue := by
      show (d.queues ++ [Ticket.mk id (d.currentQueue + 1) ts false]).map
          (fun t => t.number) = List.range' 1 (d.currentQueue + 1)
      rw [List.map_append, h, List.range'_concat]
      congr 1
      simp only [List.map_cons, List.map_nil, List.cons.injEq, and_true]
      omega
    have hrec := ih (issueNext d id ts name now) name hstep
    constructor
    · rw [hrec.1]
      congr 1
      show d.currentQueue + 1 + ps.length = d.currentQueue + (ps.length + 1)
      omega
    · rw [hrec.2]
      show d.currentQueue + 1 + ps.length = d.currentQueue + (ps.length + 1)
      omega

/-- C3: running any finite sequence of `generateNewQueue` operations from a
fresh zeroed document appends exactly the ticket numbers 1, 2, 3, ... in
order: the number list equals `[1, ..., k]` for `k` operations. -/
theorem issueRun_ticket_numbers (name : List Nat) (t0 : Nat)
    (ps : List (Nat × Nat × Nat)) :
    (issueRun (getDefaultData name t0) name ps).queues.map (fun t => t.number) =
      List.range' 1 ps.length := by
  have hrec := issueRun_numbers ps (getDefaultData name t0) name (by simp [getDefaultData])
  simpa [getDefaultData] using hrec.1

/-! ## C4: the outstanding counter -/

/-- C4: after every operation on the queue state document (issuance with
any number, marking with any number, calling, reset), `totalQueues` equals
the number of tickets whose served flag is false. -/
theorem docReachable_outstanding {name : List Nat} {d : QueueData}
    (h : DocReachable name d) : d.totalQueues = unservedCount d.queues := by
  induction h with
  | init now => rfl
  | add qn id ts now _ => rfl
  | @mark d qn now _ ih =>
    unfold endQueue
    cases hm : markFirst d.queues qn with
    | some p => rcases p with ⟨qs, q⟩; rfl
    | none => exact ih
  | @call d now _ ih =>
    unfold callNext
    split_ifs with hguard
    · exact ih
    · unfold endQueue
      cases hm : markFirst d.queues (d.callingQueue + 1) with
      | some p => rcases p with ⟨qs, q⟩; rfl
      | none => exact ih
  | reset t now _ => rfl

/-- C4 witness: the counter matches the unserved count after one append on
a fresh document. -/
theorem docReachable_outstanding_witness :
    (addQueue (getDefaultData [] 0) 1 5 6 [] 7).1.totalQueues =
      unservedCount (addQueue (getDefaultData [] 0) 1 5 6 [] 7).1.queues :=
  docReachable_outstanding (DocReachable.add 1 5 6 7 (DocReachable.init 0))

/-! ## C5: the `endQueue` contract -/

/-- C5: `endQueue` marks the earliest unserved ticket with the given number
when one exists (setting `served`, setting `calling` to the argument, and
recomputing the outstanding count) and returns it; when none exists it
returns absent and leaves `calling` unchanged. -/
theorem endQueue_spec (d : QueueData) (n : Nat) (name : List Nat) (now : Nat) :
    ((∃ t ∈ d.queues, t.number = n ∧ t.served = false) →
      ∃ l1 t l2,
        d.queues = l1 ++ t :: l2 ∧
        (∀ u ∈ l1, ¬(u.number = n ∧ u.served = false)) ∧
        t.number = n ∧ t.served = false ∧
        (endQueue d n name now).1.queues = l1 ++ { t with served := true } :: l2 ∧
        (endQueue d n name now).1.callingQueue = n ∧
        (endQueue d n name now).1.totalQueues =
          unservedCount (endQueue d n name now).1.queues ∧
        (endQueue d n name now).2 = some { t with served := true }) ∧
    ((∀ t ∈ d.queues, ¬(t.number = n ∧ t.served = false)) →
      (endQueue d n name now).2 = none ∧
      (endQueue d n name now).1.callingQueue = d.callingQueue) := by
  cases hm : markFirst d.queues n with
  | some p =>
    rcases p with ⟨qs, q⟩
    obtain ⟨l1, t, l2, e1, e2, e3, e4, e5, e6⟩ := markFirst_some_spec d.queues n qs q hm
    constructor
    · intro _
      refine ⟨l1, t, l2, e1, e2, e3, e4, ?_, ?_, ?_, ?_⟩
      · simp only [endQueue, saveBackup, hm]
        exact e6
      · simp only [endQueue, saveBackup, hm]
      · simp only [endQueue, saveBackup, hm]
      · simp only [endQueue, saveBackup, hm]
        rw [e5]
    · intro hall
      have : markFirst d.queues n = none := (markFirst_eq_none_iff d.queues n).2 hall
      rw [hm] at this
      exact absurd this (by simp)
  | none =>
    constructor
    · intro ⟨t, hmem, ht⟩
      have := (markFirst_eq_none_iff d.queues n).1 hm t hmem
      exact absurd ht this
    · intro _
      unfold endQueue
      rw [hm]
      exact ⟨rfl, rfl⟩

/-- C5 witness: the absent branch on a document whose only ticket has a
different number. -/
theorem endQueue_spec_witness :
    (endQueue ((addQueue (getDefaultData [] 0) 1 5 6 [] 7).1) 2 [] 9).2 = none ∧
      (endQueue ((addQueue (getDefaultData [] 0) 1 5 6 [] 7).1) 2 [] 9).1.callingQueue =
        ((addQueue (getDefaultData [] 0) 1 5 6 [] 7).1).callingQueue :=
  (endQueue_spec ((addQueue (getDefaultData [] 0) 1 5 6 [] 7).1) 2 [] 9).2 (by decide)

/-! ## C10: the absent branch still persists -/

/-- C10: even when `endQueue` finds no matching unserved ticket, the whole
document is persisted through `saveBackup`, so `lastUpdated` and the
`queueName` field are rewritten; tickets, `calling` and the outstanding
counter are untouched, but the operation is not fully state preserving. -/
theorem endQueue_absent_persists (d : QueueData) (n : Nat) (name : List Nat) (now : Nat)
    (h : ∀ t ∈ d.queues, ¬(t.number = n ∧ t.served = false)) :
    (endQueue d n name now).1 = { d with lastUpdated := now, queueName := name } ∧
    (endQueue d n name now).1.queues = d.queues ∧
    (endQueue d n name now).1.callingQueue = d.callingQueue ∧
    (endQueue d n name now).1.totalQueues = d.totalQueues ∧
    (endQueue d n name now).1.currentQueue = d.currentQueue ∧
    (endQueue d n name now).1.lastUpdated = now ∧
    (endQueue d n name now).1.queueName = name ∧
    (now ≠ d.lastUpdated → (endQueue d n name now).1 ≠ d) := by
  have hm := (markFirst_eq_none_iff d.queues n).2 h
  simp only [endQueue, saveBackup, hm]
  refine ⟨trivial, trivial, trivial, trivial, trivial, trivial, trivial, ?_⟩
  intro hne hcontra
  have hlu := congrArg QueueData.lastUpdated hcontra
  simp only at hlu
  exact hne hlu

/-- C10 witness: on a fresh document with a stale timestamp, the absent
branch rewrites `lastUpdated` and therefore changes the document. -/
theorem endQueue_absent_persists_witness :
    (endQueue (getDefaultData [] 0) 3 [] 42).1 =
        { getDefaultData [] 0 with lastUpdated := 42, queueName := [] } ∧
      (endQueue (getDefaultData [] 0) 3 [] 42).1.lastUpdated = 42 ∧
      (endQueue (getDefaultData [] 0) 3 [] 42).1 ≠ getDefaultData [] 0 := by
  have hfull := endQueue_absent_persists (getDefaultData [] 0) 3 [] 42 (by decide)
  exact ⟨hfull.1, hfull.2.2.2.2.2.1, hfull.2.2.2.2.2.2.2 (by decide)⟩

/-! ## C7: the viewer status on the display page -/

/-- C7: for a reachable document and a viewer holding one of its tickets,
the display shows the called banner exactly when the own number is at most
`calling`, with the elapsed wait ending at the time of the call; otherwise
it shows `own - calling` tickets ahead, with the elapsed wait ending at the
current time. Both waits start at the issuance timestamp of the ticket. -/
theorem displayRender_spec {name : List Nat} {d : QueueData} (h : Reachable name d)
    (own lastCalled now : Nat) (t : Ticket) (ht : getQueue d own = some t) :
    (own ≤ d.callingQueue →
      displayRender d own lastCalled now =
        UserStatus.called (some ((lastCalled : Int) - (t.timestamp : Int)))) ∧
    (d.callingQueue < own →
      displayRender d own lastCalled now =
        UserStatus.ahead (own - d.callingQueue)
          (some ((now : Int) - (t.timestamp : Int)))) := by
  obtain ⟨h1, h2, h3⟩ := reachable_inv h
  have hmem : t ∈ d.queues := List.mem_of_find?_eq_some ht
  have hnum : t.number = own := by
    have := List.find?_some ht
    simpa using this
  have hserved : t.served = decide (t.number ≤ d.callingQueue) := by
    have hmem' : (t.number, t.served) ∈ d.queues.map (fun u => (u.number, u.served)) :=
      List.mem_map_of_mem _ hmem
    rw [h2] at hmem'
    simp only [List.mem_map] at hmem'
    obtain ⟨j, _, hpair⟩ := hmem'
    rw [Prod.mk.injEq] at hpair
    obtain ⟨e1, e2⟩ := hpair
    rw [← e2, e1]
  constructor
  · intro hle
    have hst : t.served = true := by
      rw [hserved, hnum]
      exact decide_eq_true hle
    simp only [displayRender, ht, updateUserQueueStatus, getTotalWaitingTime, hst,
      if_pos hle, if_true]
  · intro hgt
    have hsf : t.served = false := by
      rw [hserved, hnum]
      exact decide_eq_false (by omega)
    simp only [displayRender, ht, updateUserQueueStatus, getTotalWaitingTime, hsf,
      if_neg (by omega : ¬(own ≤ d.callingQueue))]
    simp

/-- C7 witness: two issued tickets and one call; the holder of ticket 2
sees one ticket ahead and a wait counted from the current time back to the
issuance timestamp. -/
theorem displayRender_spec_witness :
    displayRender (callNext (issueNext (issueNext (getDefaultData [] 0) 1 2 [] 3) 4 5 [] 6)
        [] 7) 2 100 200 =
      UserStatus.ahead
        (2 - (callNext (issueNext (issueNext (getDefaultData [] 0) 1 2 [] 3) 4 5 [] 6)
          [] 7).callingQueue)
        (some (((200 : Nat) : Int) - ((Ticket.mk 4 2 5 false).timestamp : Int))) :=
  (displayRender_spec
      (Reachable.call 7 (Reachable.issue 4 5 6 (Reachable.issue 1 2 3 (Reachable.init 0))))
      2 100 200 (Ticket.mk 4 2 5 false) (by decide)).2 (by decide)

/-! ## C8: removing a credential record -/

/-- C8: deleting a queue record that is the only one in the collection
deletes the whole collection (the auth file state becomes absent) rather
than persisting an empty shell; when other records remain, exactly the
named record is removed and the remaining records are rewritten unchanged.
Both the HTTP handler and the cleanup-sweep variant behave this way. -/
theorem handleDeleteQueueAuth_spec (a : AuthData) (q : List Nat) (now : Nat)
    (hq : ∃ p ∈ a.queues, p.1 = q) :
    (a.queues.filter (fun p => !decide (p.1 = q)) = [] →
      handleDeleteQueueAuth (some a) q now = (none, ⟨200, true⟩) ∧
      removeQueueFromAuthFile (some a) q now = none) ∧
    (a.queues.filter (fun p => !decide (p.1 = q)) ≠ [] →
      handleDeleteQueueAuth (some a) q now =
        (some ⟨a.queues.filter (fun p => !decide (p.1 = q)), now⟩, ⟨200, true⟩) ∧
      removeQueueFromAuthFile (some a) q now =
        some ⟨a.queues.filter (fun p => !decide (p.1 = q)), now⟩) := by
  obtain ⟨p, hp, hpq⟩ := hq
  have hfind : (a.queues.find? fun p => decide (p.1 = q)).isSome := by
    rw [List.find?_isSome]
    exact ⟨p, hp, by simp [hpq]⟩
  constructor
  · intro hempty
    constructor
    · simp [handleDeleteQueueAuth, hfind, hempty]
    · simp [removeQueueFromAuthFile, hfind, hempty]
  · intro hne
    constructor
    · simp [handleDeleteQueueAuth, hfind, hne]
    · simp [removeQueueFromAuthFile, hfind, hne]

/-- C8 witness: deleting the only record empties and removes the
collection. -/
theorem handleDeleteQueueAuth_spec_witness :
    handleDeleteQueueAuth (some ⟨[([97], ⟨[], [], 0, 0⟩)], 5⟩) [97] 9 =
      (none, ⟨200, true⟩) :=
  (((handleDeleteQueueAuth_spec ⟨[([97], ⟨[], [], 0, 0⟩)], 5⟩ [97] 9
    (by decide)).1) (by decide)).1

/-! ## C9: deletion requests against missing targets -/

/-- C9 counterexample: the per-record deletion endpoint answers a missing
auth file with a 404 error body, not with success. -/
theorem deleteMissing_counterexample :
    (handleDeleteQueueAuth none [97] 0).2.success = false ∧
      (handleDeleteQueueAuth none [97] 0).2.status = 404 := by
  constructor <;> rfl

/-- C9 as amended: deletion requests whose target does not exist are
answered with success by the backup-file endpoint and the whole-auth-file
endpoint, but the per-record endpoint answers 404 with an error body when
the auth file or the named record is missing (leaving the stored state
untouched). -/
theorem deleteMissing_spec (q : List Nat) (now : Nat) (a : AuthData)
    (hq : ∀ p ∈ a.queues, p.1 ≠ q) :
    handleDeleteQueueBackup none = (none, ⟨200, true⟩) ∧
    handleDeleteAuth none = (none, ⟨200, true⟩) ∧
    handleDeleteQueueAuth none q now = (none, ⟨404, false⟩) ∧
    handleDeleteQueueAuth (some a) q now = (some a, ⟨404, false⟩) := by
  have hfind : (a.queues.find? fun p => decide (p.1 = q)) = none := by
    rw [List.find?_eq_none]
    intro p hp
    simp [hq p hp]
  refine ⟨rfl, rfl, rfl, ?_⟩
  simp [handleDeleteQueueAuth, hfind]

/-- C9 witness: the amended behavior at a concrete collection without the
requested record. -/
theorem deleteMissing_spec_witness :
    handleDeleteQueueBackup none = (none, ⟨200, true⟩) ∧
    handleDeleteAuth none = (none, ⟨200, true⟩) ∧
    handleDeleteQueueAuth none [97] 3 = (none, ⟨404, false⟩) ∧
    handleDeleteQueueAuth (some ⟨[([98], ⟨[], [], 0, 0⟩)], 5⟩) [97] 3 =
      (some ⟨[([98], ⟨[], [], 0, 0⟩)], 5⟩, ⟨404, false⟩) :=
  deleteMissing_spec [97] 3 ⟨[([98], ⟨[], [], 0, 0⟩)], 5⟩ (by decide)
